import Mathlib

/-
  Shallow embedding of killeent/suffix_tree (src/suffix_tree/naive_suffix_trie.py).

  Nodes live in an arena (a list of nodes); a node reference in the Python code
  is an index into the arena.  Index 0 is always the root created first by
  `_build_suffix_trie`.  A Python `dict` of edges is an association list with
  insertion order preserved and overwrite-in-place semantics.  A raised Python
  exception (KeyError from `self.edges[label]`, AttributeError from
  `None.suffix_link`) is modelled by `Except.error` / `Option.none` results.
-/

namespace NaiveSuffixTrie

/-- One `SuffixTrieNode`: a suffix link (None or a node reference) and an
edge mapping from character labels to child node references. -/
structure SuffixTrieNode where
  suffix_link : Option Nat
  edges : List (Char × Nat)
deriving Repr, DecidableEq, Inhabited

/-- The node arena; Python object references become indices into this list. -/
abbrev Arena := List SuffixTrieNode

/-- Dereference a node index.  Out-of-range reads never happen on the states
the build produces; `getD` keeps the function total. -/
def getNode (a : Arena) (i : Nat) : SuffixTrieNode :=
  a.getD i ⟨none, []⟩

/-- Python dict lookup `edges[label]` as an association-list lookup:
`none` models a raised KeyError. -/
def lookupEdge : List (Char × Nat) → Char → Option Nat
  | [], _ => none
  | (c, j) :: rest, label => if c == label then some j else lookupEdge rest label

/-- Python dict assignment `edges[label] = child`: overwrite in place if the
key exists, otherwise append (insertion order preserved). -/
def insertEdge : List (Char × Nat) → Char → Nat → List (Char × Nat)
  | [], label, child => [(label, child)]
  | (c, j) :: rest, label, child =>
      if c == label then (label, child) :: rest
      else (c, j) :: insertEdge rest label child

/-- Source `SuffixTrieNode.contains_edge`: `label in self.edges`. -/
def contains_edge (a : Arena) (i : Nat) (label : Char) : Bool :=
  (lookupEdge (getNode a i).edges label).isSome

/-- Source `SuffixTrieNode.get_edge`: `self.edges[label]`; `none` models the KeyError
raised when the label is absent. -/
def get_edge (a : Arena) (i : Nat) (label : Char) : Option Nat :=
  lookupEdge (getNode a i).edges label

/-- Source `SuffixTrieNode.add_edge`: `self.edges[label] = child` on node `i`. -/
def add_edge (a : Arena) (i : Nat) (label : Char) (child : Nat) : Arena :=
  a.set i { getNode a i with edges := insertEdge (getNode a i).edges label child }

/-- Source `SuffixTrieNode.add_link` and the `prev.suffix_link = ...` assignment. -/
def add_link (a : Arena) (i : Nat) (link : Nat) : Arena :=
  a.set i { getNode a i with suffix_link := some link }

/-- The inner `while curr is not None and not curr.contains_edge(character)`
loop of `_build_suffix_trie`.  The state is (arena, prev, curr); `fuel` bounds
the number of iterations (the Python loop always terminates because suffix
links point to strictly shallower nodes); running out of fuel with the guard
still true yields `none`, which never happens on an actual run.
Returns the state at loop exit. -/
def walkChain (c : Char) : Nat → Arena → Option Nat → Option Nat →
    Option (Arena × Option Nat × Option Nat)
  | fuel, a, some i, prev =>
      if contains_edge a i c then some (a, prev, some i)
      else
        match fuel with
        | 0 => none
        | fuel + 1 =>
          -- child = SuffixTrieNode(); curr.add_edge(character, child)
          let j := a.length
          let a1 := a ++ [⟨none, []⟩]
          let a2 := add_edge a1 i c j
          -- if prev is not None: prev.add_link(child)
          let a3 := match prev with
            | some p => add_link a2 p j
            | none => a2
          -- prev = child; curr = curr.get_link()
          walkChain c fuel a3 ((getNode a3 i).suffix_link) (some j)
  | _, a, none, prev => some (a, prev, none)

/-- One iteration of the outer `for character in string[1:]` loop of
`_build_suffix_trie`.  State is (arena, deepest).  `none` models an uncaught
exception: `prev.suffix_link = ...` with `prev = None` (AttributeError) or a
KeyError from `get_edge` (both unreachable on actual runs), or fuel
exhaustion in the inner walk. -/
def buildStep (a : Arena) (deepest : Nat) (character : Char) :
    Option (Arena × Nat) :=
  match walkChain character (a.length + 1) a (some deepest) none with
  | none => none
  | some (a1, prev, curr) =>
    -- if curr is not None: prev.suffix_link = curr.get_edge(character)
    let a2opt : Option Arena :=
      match curr with
      | none => some a1
      | some i =>
        match prev with
        | none => none      -- AttributeError: None.suffix_link
        | some p =>
          match get_edge a1 i character with
          | none => none    -- KeyError (loop exited on contains_edge, so absent)
          | some target => some (add_link a1 p target)
    match a2opt with
    | none => none
    | some a2 =>
      -- deepest = deepest.get_edge(character)
      match get_edge a2 deepest character with
      | none => none        -- KeyError (edge was present or just added)
      | some d => some (a2, d)

/-- The outer loop of `_build_suffix_trie` over `string[1:]`. -/
def buildLoop : Arena → Nat → List Char → Option (Arena × Nat)
  | a, deepest, [] => some (a, deepest)
  | a, deepest, c :: cs =>
    match buildStep a deepest c with
    | none => none
    | some (a1, d1) => buildLoop a1 d1 cs

/-- Source `_build_suffix_trie(string)`: returns the arena together with the root
index (the Python function returns the root object).  Index 0 is the root;
index 1 is the first child `SuffixTrieNode(root)` reached by `string[0]`. -/
def _build_suffix_trie (string : List Char) : Option (Arena × Nat) :=
  match string with
  | [] => some ([⟨none, []⟩], 0)
  | c0 :: rest =>
    match buildLoop [⟨none, [(c0, 1)]⟩, ⟨some 0, []⟩] 1 rest with
    | none => none
    | some st => some (st.1, 0)

/-- The shared edge walk of `substring` and `occurrences`: from node `i`,
consume one character per step via `curr = curr.get_edge(c)`.  `Except.error`
models the KeyError raised on a missing edge.  (The Python `if curr is None:
return False` test is unreachable: dict values are always nodes.) -/
def walkFrom (a : Arena) : Nat → List Char → Except Unit Nat
  | i, [] => Except.ok i
  | i, c :: rest =>
    match get_edge a i c with
    | none => Except.error ()
    | some j => walkFrom a j rest

/-- Source `substring(suffix_trie, search_str)`: walk, then `return True`. -/
def substring (a : Arena) (suffix_trie : Nat) (search_str : List Char) :
    Except Unit Bool :=
  match walkFrom a suffix_trie search_str with
  | Except.error e => Except.error e
  | Except.ok _ => Except.ok true

/-- The loop of `suffix`: note the source reads
`curr = suffix_trie.get_edge(c)` — every step restarts from the root
argument, not from `curr`. -/
def suffixLoop (a : Arena) (suffix_trie : Nat) : Nat → List Char → Except Unit Nat
  | curr, [] => Except.ok curr
  | _, c :: rest =>
    match get_edge a suffix_trie c with
    | none => Except.error ()
    | some j => suffixLoop a suffix_trie j rest

/-- Source `suffix(suffix_trie, suffix_str)`: the restart-from-root walk, then
`return len(curr.edge_list()) == 0` (leaf test on the node reached). -/
def suffix (a : Arena) (suffix_trie : Nat) (suffix_str : List Char) :
    Except Unit Bool :=
  match suffixLoop a suffix_trie suffix_trie suffix_str with
  | Except.error e => Except.error e
  | Except.ok curr => Except.ok (getNode a curr).edges.isEmpty

/-- Source `_get_leaves(suffix_trie)`: 1 for a node with no edges, else the sum over
the children.  The recursion is fuel-bounded; callers pass the arena size,
which exceeds the tree depth on every built trie, so the fuel is never
exhausted on actual runs (exhaustion yields 0). -/
def _get_leaves (a : Arena) : Nat → Nat → Nat
  | 0, _ => 0
  | fuel + 1, i =>
    match (getNode a i).edges with
    | [] => 1
    | es => (es.map fun e => _get_leaves a fuel e.2).sum

/-- Source `occurrences(suffix_trie, search_str)`: walk `search_str` from the root
argument, then `return _get_leaves(suffix_trie)` — the leaf count of the
whole graph from the root argument, not of the matched subtree. -/
def occurrences (a : Arena) (suffix_trie : Nat) (search_str : List Char) :
    Except Unit Nat :=
  match walkFrom a suffix_trie search_str with
  | Except.error e => Except.error e
  | Except.ok _ => Except.ok (_get_leaves a a.length suffix_trie)

/-- Modelled from the spec: the `suffix` walk as section 4.3 describes it —
the same continuation walk as `substring` (each step proceeds from the node
the previous step reached), then a leaf test on the final node.  Used only
to exhibit how the source's restart-from-root walk diverges from the spec. -/
def suffix_spec (a : Arena) (suffix_trie : Nat) (suffix_str : List Char) :
    Except Unit Bool :=
  match walkFrom a suffix_trie suffix_str with
  | Except.error e => Except.error e
  | Except.ok curr => Except.ok (getNode a curr).edges.isEmpty

/-- State-threaded rendering of the `substring`/`occurrences` walk: identical
statement-for-statement to `walkFrom`, but the arena an operation finishes
with is returned alongside the result.  The loop body rebinds the local
`curr` only — no node field is ever assigned — so the threading makes the
frame property of the Query Engine provable rather than assumed. -/
def walkFromSt : Arena → Nat → List Char → Except Unit Nat × Arena
  | a, i, [] => (Except.ok i, a)
  | a, i, c :: rest =>
    match get_edge a i c with
    | none => (Except.error (), a)
    | some j => walkFromSt a j rest

/-- State-threaded `substring`. -/
def substringSt (a : Arena) (suffix_trie : Nat) (search_str : List Char) :
    Except Unit Bool × Arena :=
  match walkFromSt a suffix_trie search_str with
  | (Except.error e, a1) => (Except.error e, a1)
  | (Except.ok _, a1) => (Except.ok true, a1)

/-- State-threaded rendering of the loop of `suffix` (restart-from-root, as
in the source). -/
def suffixLoopSt : Arena → Nat → Nat → List Char → Except Unit Nat × Arena
  | a, _, curr, [] => (Except.ok curr, a)
  | a, root, _, c :: rest =>
    match get_edge a root c with
    | none => (Except.error (), a)
    | some j => suffixLoopSt a root j rest

/-- State-threaded `suffix`. -/
def suffixSt (a : Arena) (suffix_trie : Nat) (suffix_str : List Char) :
    Except Unit Bool × Arena :=
  match suffixLoopSt a suffix_trie suffix_trie suffix_str with
  | (Except.error e, a1) => (Except.error e, a1)
  | (Except.ok curr, a1) => (Except.ok (getNode a1 curr).edges.isEmpty, a1)

/-- State-threaded `occurrences`. -/
def occurrencesSt (a : Arena) (suffix_trie : Nat) (search_str : List Char) :
    Except Unit Nat × Arena :=
  match walkFromSt a suffix_trie search_str with
  | (Except.error e, a1) => (Except.error e, a1)
  | (Except.ok _, a1) => (Except.ok (_get_leaves a1 a1.length suffix_trie), a1)

/-- Edge preservation between arenas: every edge lookup that succeeds in `a`
still succeeds with the same target in `b`.  Each mutation the build
performs (appending a fresh node, adding an edge under a label checked to be
absent, rewriting a suffix link) preserves edges in this sense. -/
def EdgePres (a b : Arena) : Prop :=
  ∀ i c j, get_edge a i c = some j → get_edge b i c = some j

/-- The tail of the arena the build produces on an input whose first two
characters differ: after the first two symbols, every further build step
only ever visits the last two leaves (the suffix-link walk dies on the
absent link left on the second of them), appending one fresh pair of nodes
per symbol.  `tailPairs cs i` is that shape starting at index `i`. -/
def tailPairs : List Char → Nat → Arena
  | [], i => [⟨some (i + 1), []⟩, ⟨none, []⟩]
  | c :: cs, i =>
      ⟨some (i + 1), [(c, i + 2)]⟩ :: ⟨none, [(c, i + 3)]⟩ :: tailPairs cs (i + 2)

end NaiveSuffixTrie

namespace NaiveSuffixTrie

/- Helper lemmas about arena reads and writes. -/

theorem getNode_append_left {a : Arena} (b : Arena) {i : Nat}
    (h : i < a.length) : getNode (a ++ b) i = getNode a i :=
  List.getD_append a b _ i h

theorem getNode_append_right (a b : Arena) {i : Nat} (h : a.length ≤ i) :
    getNode (a ++ b) i = getNode b (i - a.length) :=
  List.getD_append_right a b _ i h

theorem getNode_of_le {a : Arena} {i : Nat} (h : a.length ≤ i) :
    getNode a i = ⟨none, []⟩ :=
  List.getD_eq_default _ _ h

theorem getNode_set (a : Arena) (i j : Nat) (x : SuffixTrieNode) :
    getNode (a.set i x) j =
      if i = j ∧ j < a.length then x else getNode a j := by
  by_cases hij : i = j
  · subst hij
    by_cases hlt : i < a.length
    · rw [if_pos ⟨rfl, hlt⟩, getNode, List.getD_eq_getD_get?,
        List.get?_set_eq_of_lt x hlt, Option.getD_some]
    · have hle : a.length ≤ i := Nat.le_of_not_lt hlt
      have hset : (a.set i x).length ≤ i := by
        rw [List.length_set]; exact hle
      rw [if_neg (by simp [hlt]), getNode_of_le hset, getNode_of_le hle]
  · rw [if_neg (by simp [hij]), getNode, getNode, List.getD_eq_getD_get?,
      List.getD_eq_getD_get?, List.get?_set_ne x a hij]

theorem getNode_add_link_edges (a : Arena) (p l j : Nat) :
    (getNode (add_link a p l) j).edges = (getNode a j).edges := by
  unfold add_link
  rw [getNode_set]
  by_cases h : p = j ∧ j < a.length
  · rw [if_pos h, ← h.1]
  · rw [if_neg h]

theorem lookupEdge_insertEdge_of_absent {es : List (Char × Nat)}
    {label : Char} (habs : lookupEdge es label = none) (child : Nat)
    {c : Char} {j : Nat} (h : lookupEdge es c = some j) :
    lookupEdge (insertEdge es label child) c = some j := by
  induction es with
  | nil => simp [lookupEdge] at h
  | cons hd tl ih =>
    obtain ⟨c0, j0⟩ := hd
    by_cases h0 : c0 == label
    · rw [lookupEdge, if_pos h0] at habs
      exact absurd habs (by simp)
    · rw [lookupEdge, if_neg h0] at habs
      rw [insertEdge, if_neg h0]
      by_cases hc : c0 == c
      · rw [lookupEdge, if_pos hc] at h
        rw [lookupEdge, if_pos hc]
        exact h
      · rw [lookupEdge, if_neg hc] at h
        rw [lookupEdge, if_neg hc]
        exact ih habs h

/- Edge preservation under the primitive arena operations. -/

theorem edgePres_rfl (a : Arena) : EdgePres a a := fun _ _ _ h => h

theorem edgePres_trans {a b c : Arena} (h1 : EdgePres a b)
    (h2 : EdgePres b c) : EdgePres a c :=
  fun i l j h => h2 i l j (h1 i l j h)

theorem edgePres_append (a b : Arena) : EdgePres a (a ++ b) := by
  intro i c j h
  by_cases hi : i < a.length
  · rw [get_edge, getNode_append_left b hi]
    exact h
  · rw [get_edge, getNode_of_le (Nat.le_of_not_lt hi)] at h
    simp [lookupEdge] at h

theorem edgePres_add_link (a : Arena) (p l : Nat) :
    EdgePres a (add_link a p l) := by
  intro i c j h
  rw [get_edge, getNode_add_link_edges]
  exact h

theorem edgePres_add_edge {a : Arena} {i : Nat} {label : Char}
    (habs : contains_edge a i label = false) (child : Nat) :
    EdgePres a (add_edge a i label child) := by
  intro i2 c j h
  have hnone : lookupEdge (getNode a i).edges label = none := by
    unfold contains_edge at habs
    exact Option.not_isSome_iff_eq_none.mp (by simp [habs])
  unfold add_edge get_edge
  rw [getNode_set]
  by_cases hcase : i = i2 ∧ i2 < a.length
  · rw [if_pos hcase]
    obtain ⟨rfl, _⟩ := hcase
    exact lookupEdge_insertEdge_of_absent hnone child h
  · rw [if_neg hcase]
    exact h

theorem contains_edge_append_fresh {a : Arena} {i : Nat} {c : Char}
    (h : contains_edge a i c = false) :
    contains_edge (a ++ [⟨none, []⟩]) i c = false := by
  by_cases hi : i < a.length
  · rw [contains_edge, getNode_append_left _ hi]
    exact h
  · rw [contains_edge, getNode_append_right _ _ (Nat.le_of_not_lt hi)]
    have : getNode [(⟨none, []⟩ : SuffixTrieNode)] (i - a.length) =
        ⟨none, []⟩ := by
      cases i - a.length with
      | zero => rfl
      | succ k => rfl
    rw [this]
    rfl

/- The inner suffix-link walk preserves edges. -/

theorem walkChain_edgePres (c : Char) :
    ∀ (fuel : Nat) (a : Arena) (curr prev : Option Nat)
      (res : Arena × Option Nat × Option Nat),
      walkChain c fuel a curr prev = some res → EdgePres a res.1 := by
  intro fuel
  induction fuel with
  | zero =>
    intro a curr prev res h
    cases curr with
    | none =>
      rw [walkChain] at h
      injection h with h
      rw [← h]
      exact edgePres_rfl a
    | some i =>
      rw [walkChain] at h
      by_cases hc : contains_edge a i c
      · rw [if_pos hc] at h
        injection h with h
        rw [← h]
        exact edgePres_rfl a
      · rw [if_neg hc] at h
        exact absurd h (by simp)
  | succ fuel ih =>
    intro a curr prev res h
    cases curr with
    | none =>
      rw [walkChain] at h
      injection h with h
      rw [← h]
      exact edgePres_rfl a
    | some i =>
      rw [walkChain] at h
      by_cases hc : contains_edge a i c
      · rw [if_pos hc] at h
        injection h with h
        rw [← h]
        exact edgePres_rfl a
      · rw [if_neg hc] at h
        have hfresh := contains_edge_append_fresh
          (a := a) (i := i) (c := c) (Bool.eq_false_iff.mpr hc)
        have pres1 : EdgePres a (a ++ [⟨none, []⟩]) := edgePres_append a _
        have pres2 : EdgePres (a ++ [⟨none, []⟩])
            (add_edge (a ++ [⟨none, []⟩]) i c a.length) :=
          edgePres_add_edge hfresh a.length
        set a2 := add_edge (a ++ [⟨none, []⟩]) i c a.length with ha2
        cases prev with
        | none =>
          have pres3 := ih a2 ((getNode a2 i).suffix_link) (some a.length) res h
          exact edgePres_trans pres1 (edgePres_trans pres2 pres3)
        | some p =>
          set a3 := add_link a2 p a.length with ha3
          have pres25 : EdgePres a2 a3 := edgePres_add_link a2 p a.length
          have pres3 := ih a3 ((getNode a3 i).suffix_link) (some a.length) res h
          exact edgePres_trans pres1
            (edgePres_trans pres2 (edgePres_trans pres25 pres3))

/- Build-step and build-loop facts feeding C6. -/

theorem buildStep_edgePres_get {a : Arena} {d : Nat} {c : Char}
    {st1 : Arena × Nat} (h : buildStep a d c = some st1) :
    EdgePres a st1.1 ∧ get_edge st1.1 d c = some st1.2 := by
  unfold buildStep at h
  cases hw : walkChain c (a.length + 1) a (some d) none with
  | none => rw [hw] at h; exact absurd h (by simp)
  | some res =>
    rw [hw] at h
    obtain ⟨a1, prev, curr⟩ := res
    have presw : EdgePres a a1 :=
      walkChain_edgePres c (a.length + 1) a (some d) none _ hw
    cases curr with
    | none =>
      simp only at h
      cases hg : get_edge a1 d c with
      | none => rw [hg] at h; exact absurd h (by simp)
      | some d1 =>
        rw [hg] at h
        injection h with h
        rw [← h]
        exact ⟨presw, hg⟩
    | some i =>
      cases prev with
      | none => simp only at h; exact absurd h (by simp)
      | some p =>
        simp only at h
        cases hge : get_edge a1 i c with
        | none => rw [hge] at h; exact absurd h (by simp)
        | some target =>
          rw [hge] at h
          simp only at h
          cases hg : get_edge (add_link a1 p target) d c with
          | none => rw [hg] at h; exact absurd h (by simp)
          | some d1 =>
            rw [hg] at h
            injection h with h
            rw [← h]
            exact ⟨edgePres_trans presw (edgePres_add_link a1 p target), hg⟩

theorem buildLoop_edgePres :
    ∀ (cs : List Char) (a : Arena) (d : Nat) (st1 : Arena × Nat),
      buildLoop a d cs = some st1 → EdgePres a st1.1 := by
  intro cs
  induction cs with
  | nil =>
    intro a d st1 h
    rw [buildLoop] at h
    injection h with h
    rw [← h]
    exact edgePres_rfl _
  | cons c cs ih =>
    intro a d st1 h
    rw [buildLoop] at h
    cases hs : buildStep a d c with
    | none => rw [hs] at h; exact absurd h (by simp)
    | some stm =>
      rw [hs] at h
      obtain ⟨a1, d1⟩ := stm
      exact edgePres_trans (buildStep_edgePres_get hs).1 (ih a1 d1 st1 h)

theorem buildLoop_walkFrom :
    ∀ (cs : List Char) (a : Arena) (d : Nat) (st1 : Arena × Nat),
      buildLoop a d cs = some st1 →
      walkFrom st1.1 d cs = Except.ok st1.2 := by
  intro cs
  induction cs with
  | nil =>
    intro a d st1 h
    rw [buildLoop] at h
    injection h with h
    rw [← h]
    rfl
  | cons c cs ih =>
    intro a d st1 h
    rw [buildLoop] at h
    cases hs : buildStep a d c with
    | none => rw [hs] at h; exact absurd h (by simp)
    | some stm =>
      rw [hs] at h
      obtain ⟨a1, d1⟩ := stm
      have hedge : get_edge st1.1 d c = some d1 :=
        buildLoop_edgePres cs a1 d1 st1 h d c d1
          (buildStep_edgePres_get hs).2
      rw [walkFrom, hedge]
      exact ih a1 d1 st1 h

theorem walkFrom_take (a : Arena) :
    ∀ (s : List Char) (i k n : Nat), walkFrom a i s = Except.ok k →
      ∃ m, walkFrom a i (s.take n) = Except.ok m := by
  intro s
  induction s with
  | nil =>
    intro i k n _
    exact ⟨i, by rw [List.take_nil]; rfl⟩
  | cons c rest ih =>
    intro i k n h
    cases n with
    | zero => exact ⟨i, rfl⟩
    | succ n =>
      rw [walkFrom] at h
      cases hg : get_edge a i c with
      | none => rw [hg] at h; exact absurd h (by simp)
      | some j =>
        rw [hg] at h
        obtain ⟨m, hm⟩ := ih j k n h
        refine ⟨m, ?_⟩
        rw [List.take_succ_cons, walkFrom, hg]
        exact hm

/- Facts feeding C9 and C10. -/

theorem walkFromSt_snd (a : Arena) :
    ∀ (s : List Char) (i : Nat), (walkFromSt a i s).2 = a := by
  intro s
  induction s with
  | nil => intro i; rfl
  | cons c rest ih =>
    intro i
    rw [walkFromSt]
    cases hg : get_edge a i c with
    | none => rfl
    | some j => exact ih j

theorem suffixLoopSt_snd (a : Arena) (root : Nat) :
    ∀ (s : List Char) (curr : Nat), (suffixLoopSt a root curr s).2 = a := by
  intro s
  induction s with
  | nil => intro curr; rfl
  | cons c rest ih =>
    intro curr
    rw [suffixLoopSt]
    cases hg : get_edge a root c with
    | none => rfl
    | some j => exact ih j

theorem occurrences_ok_eq (a : Arena) (r : Nat) (q : List Char) (v : Nat)
    (h : occurrences a r q = Except.ok v) :
    v = _get_leaves a a.length r := by
  unfold occurrences at h
  cases hw : walkFrom a r q with
  | error e => rw [hw] at h; exact absurd h (by simp)
  | ok i =>
    rw [hw] at h
    injection h with h
    exact h.symm

/- Reads and writes at an offset past a context `H`, and single-step
unfoldings of the suffix-link walk, feeding the characterization of the
build on inputs whose first two characters differ. -/

theorem getNode_mid (H L : Arena) (k : Nat) :
    getNode (H ++ L) (H.length + k) = getNode L k := by
  rw [getNode_append_right H L (Nat.le_add_right H.length k),
    Nat.add_sub_cancel_left]

theorem getNode_mid0 (H L : Arena) :
    getNode (H ++ L) H.length = getNode L 0 := by
  have h := getNode_mid H L 0
  rwa [Nat.add_zero] at h

theorem set_mid (H L : Arena) (k : Nat) (x : SuffixTrieNode) :
    (H ++ L).set (H.length + k) x = H ++ L.set k x := by
  induction H with
  | nil => simp
  | cons hd tl ih =>
    have harith : (hd :: tl).length + k = (tl.length + k) + 1 := by
      rw [List.length_cons]
      omega
    rw [List.cons_append, harith]
    show hd :: (tl ++ L).set (tl.length + k) x = hd :: (tl ++ L.set k x)
    rw [ih]

theorem set_mid0 (H L : Arena) (x : SuffixTrieNode) :
    (H ++ L).set H.length x = H ++ L.set 0 x := by
  have h := set_mid H L 0 x
  rwa [Nat.add_zero] at h

theorem walkChain_none (c : Char) (fuel : Nat) (a : Arena)
    (prev : Option Nat) :
    walkChain c fuel a none prev = some (a, prev, none) := by
  cases fuel with
  | zero => rfl
  | succ fuel => rfl

theorem walkChain_stop {a : Arena} {i : Nat} {c : Char}
    (hc : contains_edge a i c = true) (fuel : Nat) (prev : Option Nat) :
    walkChain c fuel a (some i) prev = some (a, prev, some i) := by
  cases fuel with
  | zero => rw [walkChain, if_pos hc]
  | succ fuel => rw [walkChain, if_pos hc]

theorem walkChain_create_none {a : Arena} {i : Nat} {c : Char}
    (hc : contains_edge a i c = false) (fuel1 fuel : Nat)
    (hf : fuel1 = fuel + 1) :
    walkChain c fuel1 a (some i) none =
      walkChain c fuel (add_edge (a ++ [⟨none, []⟩]) i c a.length)
        ((getNode (add_edge (a ++ [⟨none, []⟩]) i c a.length) i).suffix_link)
        (some a.length) := by
  subst hf
  rw [walkChain, if_neg (by simp [hc])]

theorem walkChain_create_some {a : Arena} {i : Nat} {c : Char}
    (hc : contains_edge a i c = false) (fuel1 fuel p : Nat)
    (hf : fuel1 = fuel + 1) :
    walkChain c fuel1 a (some i) (some p) =
      walkChain c fuel
        (add_link (add_edge (a ++ [⟨none, []⟩]) i c a.length) p a.length)
        ((getNode (add_link (add_edge (a ++ [⟨none, []⟩]) i c a.length)
          p a.length) i).suffix_link)
        (some a.length) := by
  subst hf
  rw [walkChain, if_neg (by simp [hc])]

theorem buildStep_pair (H : Arena) (c : Char) :
    buildStep (H ++ tailPairs [] H.length) H.length c =
      some (H ++ tailPairs [c] H.length, H.length + 2) := by
  have hA0len : (H ++ tailPairs [] H.length).length = H.length + 2 := by
    rw [List.length_append]
    rfl
  have hc0 : contains_edge (H ++ tailPairs [] H.length) H.length c = false := by
    rw [contains_edge, getNode_mid0]
    rfl
  have hA1 : (H ++ tailPairs [] H.length) ++ [(⟨none, []⟩ : SuffixTrieNode)] =
      H ++ [⟨some (H.length + 1), []⟩, ⟨none, []⟩, ⟨none, []⟩] := by
    rw [List.append_assoc]
    rfl
  have hadd1 : add_edge (H ++ [⟨some (H.length + 1), []⟩, ⟨none, []⟩,
      ⟨none, []⟩]) H.length c (H.length + 2) =
      H ++ [⟨some (H.length + 1), [(c, H.length + 2)]⟩, ⟨none, []⟩,
        ⟨none, []⟩] := by
    rw [add_edge, getNode_mid0, set_mid0]
    rfl
  have hlink1 : (getNode (H ++ [⟨some (H.length + 1), [(c, H.length + 2)]⟩,
      ⟨none, []⟩, ⟨none, []⟩]) H.length).suffix_link = some (H.length + 1) := by
    rw [getNode_mid0]
    rfl
  have hA2len : (H ++ ([⟨some (H.length + 1), [(c, H.length + 2)]⟩,
      ⟨none, []⟩, ⟨none, []⟩] : Arena)).length = H.length + 3 := by
    rw [List.length_append]
    rfl
  have hc1 : contains_edge (H ++ [⟨some (H.length + 1), [(c, H.length + 2)]⟩,
      ⟨none, []⟩, ⟨none, []⟩]) (H.length + 1) c = false := by
    rw [contains_edge, getNode_mid]
    rfl
  have hA3 : (H ++ ([⟨some (H.length + 1), [(c, H.length + 2)]⟩, ⟨none, []⟩,
      ⟨none, []⟩] : Arena)) ++ [(⟨none, []⟩ : SuffixTrieNode)] =
      H ++ [⟨some (H.length + 1), [(c, H.length + 2)]⟩, ⟨none, []⟩,
        ⟨none, []⟩, ⟨none, []⟩] := by
    rw [List.append_assoc]
    rfl
  have hadd2 : add_edge (H ++ [⟨some (H.length + 1), [(c, H.length + 2)]⟩,
      ⟨none, []⟩, ⟨none, []⟩, ⟨none, []⟩]) (H.length + 1) c (H.length + 3) =
      H ++ [⟨some (H.length + 1), [(c, H.length + 2)]⟩,
        ⟨none, [(c, H.length + 3)]⟩, ⟨none, []⟩, ⟨none, []⟩] := by
    rw [add_edge, getNode_mid, set_mid]
    rfl
  have hlk2 : add_link (H ++ [⟨some (H.length + 1), [(c, H.length + 2)]⟩,
      ⟨none, [(c, H.length + 3)]⟩, ⟨none, []⟩, ⟨none, []⟩]) (H.length + 2)
      (H.length + 3) =
      H ++ [⟨some (H.length + 1), [(c, H.length + 2)]⟩,
        ⟨none, [(c, H.length + 3)]⟩, ⟨some (H.length + 3), []⟩,
        ⟨none, []⟩] := by
    rw [add_link, getNode_mid, set_mid]
    rfl
  have hlk2b : (getNode (H ++ [⟨some (H.length + 1), [(c, H.length + 2)]⟩,
      ⟨none, [(c, H.length + 3)]⟩, ⟨some (H.length + 3), []⟩, ⟨none, []⟩])
      (H.length + 1)).suffix_link = none := by
    rw [getNode_mid]
    rfl
  have hwalk : walkChain c (H.length + 2 + 1) (H ++ tailPairs [] H.length)
      (some H.length) none =
      some (H ++ tailPairs [c] H.length, some (H.length + 3), none) := by
    rw [walkChain_create_none hc0 (H.length + 2 + 1) (H.length + 2) rfl,
      hA0len, hA1, hadd1, hlink1,
      walkChain_create_some hc1 (H.length + 2) (H.length + 1) (H.length + 2)
        rfl,
      hA2len, hA3, hadd2, hlk2, hlk2b, walkChain_none]
    rfl
  have hge : get_edge (H ++ tailPairs [c] H.length) H.length c =
      some (H.length + 2) := by
    rw [get_edge, getNode_mid0]
    simp [getNode, tailPairs, lookupEdge]
  unfold buildStep
  rw [hA0len, hwalk]
  simp only [hge]

theorem length_tailPairs :
    ∀ (cs : List Char) (i : Nat), (tailPairs cs i).length = 2 * cs.length + 2 := by
  intro cs
  induction cs with
  | nil => intro i; rfl
  | cons c cs ih =>
    intro i
    simp only [tailPairs, List.length_cons, ih (i + 2)]
    omega

theorem buildLoop_pairs :
    ∀ (cs : List Char) (H : Arena),
      buildLoop (H ++ tailPairs [] H.length) H.length cs =
        some (H ++ tailPairs cs H.length, H.length + 2 * cs.length) := by
  intro cs
  induction cs with
  | nil =>
    intro H
    rw [buildLoop]
    rfl
  | cons c cs ih =>
    intro H
    rw [buildLoop, buildStep_pair]
    show buildLoop (H ++ tailPairs [c] H.length) (H.length + 2) cs =
      some (H ++ tailPairs (c :: cs) H.length,
        H.length + 2 * (c :: cs).length)
    have ihH := ih (H ++ [⟨some (H.length + 1), [(c, H.length + 2)]⟩,
      ⟨none, [(c, H.length + 3)]⟩])
    have hl : (H ++ ([⟨some (H.length + 1), [(c, H.length + 2)]⟩,
        ⟨none, [(c, H.length + 3)]⟩] : Arena)).length = H.length + 2 := by
      rw [List.length_append]
      rfl
    rw [hl, List.append_assoc, List.append_assoc] at ihH
    have harith : H.length + 2 + 2 * cs.length =
        H.length + 2 * (cs.length + 1) := by
      omega
    rw [harith] at ihH
    exact ihH

theorem buildStep_init (c0 c1 : Char) (hne : c0 ≠ c1) :
    buildStep [⟨none, [(c0, 1)]⟩, ⟨some 0, []⟩] 1 c1 =
      some ([⟨none, [(c0, 1), (c1, 3)]⟩, ⟨some 0, [(c1, 2)]⟩,
        ⟨some 3, []⟩, ⟨none, []⟩], 2) := by
  have hb : (c0 == c1) = false := beq_eq_false_iff_ne.mpr hne
  simp [buildStep, walkChain, contains_edge, get_edge, add_edge, add_link,
    getNode, lookupEdge, insertEdge, hb, List.getD]

theorem build_distinct (c0 c1 : Char) (cs : List Char) (hne : c0 ≠ c1) :
    _build_suffix_trie (c0 :: c1 :: cs) =
      some (⟨none, [(c0, 1), (c1, 3)]⟩ :: ⟨some 0, [(c1, 2)]⟩ ::
        tailPairs cs 2, 0) := by
  have hloop : buildLoop [⟨none, [(c0, 1), (c1, 3)]⟩, ⟨some 0, [(c1, 2)]⟩,
      ⟨some 3, []⟩, ⟨none, []⟩] 2 cs =
      some (⟨none, [(c0, 1), (c1, 3)]⟩ :: ⟨some 0, [(c1, 2)]⟩ ::
        tailPairs cs 2, 2 + 2 * cs.length) :=
    buildLoop_pairs cs [⟨none, [(c0, 1), (c1, 3)]⟩, ⟨some 0, [(c1, 2)]⟩]
  rw [_build_suffix_trie, buildLoop, buildStep_init c0 c1 hne]
  simp only [hloop]

theorem get_leaves_pairs_first :
    ∀ (cs : List Char) (H : Arena) (fuel : Nat), cs.length < fuel →
      _get_leaves (H ++ tailPairs cs H.length) fuel H.length = 1 := by
  intro cs
  induction cs with
  | nil =>
    intro H fuel hf
    obtain ⟨f, rfl⟩ : ∃ f, fuel = f + 1 := ⟨fuel - 1, by omega⟩
    rw [_get_leaves, getNode_mid0]
    rfl
  | cons c cs ih =>
    intro H fuel hf
    simp only [List.length_cons] at hf
    obtain ⟨f, rfl⟩ : ∃ f, fuel = f + 1 := ⟨fuel - 1, by omega⟩
    rw [_get_leaves, getNode_mid0]
    show ([(c, H.length + 2)].map fun e =>
      _get_leaves (H ++ tailPairs (c :: cs) H.length) f e.2).sum = 1
    rw [List.map_cons, List.map_nil, List.sum_cons, List.sum_nil,
      Nat.add_zero]
    have hsplit := ih (H ++ [⟨some (H.length + 1), [(c, H.length + 2)]⟩,
      ⟨none, [(c, H.length + 3)]⟩]) f (by omega)
    have hl : (H ++ ([⟨some (H.length + 1), [(c, H.length + 2)]⟩,
        ⟨none, [(c, H.length + 3)]⟩] : Arena)).length = H.length + 2 := by
      rw [List.length_append]
      rfl
    rw [hl, List.append_assoc] at hsplit
    exact hsplit

theorem get_leaves_pairs_second :
    ∀ (cs : List Char) (H : Arena) (fuel : Nat), cs.length < fuel →
      _get_leaves (H ++ tailPairs cs H.length) fuel (H.length + 1) = 1 := by
  intro cs
  induction cs with
  | nil =>
    intro H fuel hf
    obtain ⟨f, rfl⟩ : ∃ f, fuel = f + 1 := ⟨fuel - 1, by omega⟩
    rw [_get_leaves, getNode_mid]
    rfl
  | cons c cs ih =>
    intro H fuel hf
    simp only [List.length_cons] at hf
    obtain ⟨f, rfl⟩ : ∃ f, fuel = f + 1 := ⟨fuel - 1, by omega⟩
    rw [_get_leaves, getNode_mid]
    show ([(c, H.length + 3)].map fun e =>
      _get_leaves (H ++ tailPairs (c :: cs) H.length) f e.2).sum = 1
    rw [List.map_cons, List.map_nil, List.sum_cons, List.sum_nil,
      Nat.add_zero]
    have hsplit := ih (H ++ [⟨some (H.length + 1), [(c, H.length + 2)]⟩,
      ⟨none, [(c, H.length + 3)]⟩]) f (by omega)
    have hl : (H ++ ([⟨some (H.length + 1), [(c, H.length + 2)]⟩,
        ⟨none, [(c, H.length + 3)]⟩] : Arena)).length = H.length + 2 := by
      rw [List.length_append]
      rfl
    rw [hl, List.append_assoc] at hsplit
    exact hsplit

theorem get_leaves_root_distinct (c0 c1 : Char) (cs : List Char) (fuel : Nat)
    (hf : cs.length + 3 ≤ fuel) :
    _get_leaves (⟨none, [(c0, 1), (c1, 3)]⟩ :: ⟨some 0, [(c1, 2)]⟩ ::
      tailPairs cs 2) fuel 0 = 2 := by
  obtain ⟨f, rfl⟩ : ∃ f, fuel = f + 1 + 1 := ⟨fuel - 2, by omega⟩
  rw [_get_leaves]
  show ([(c0, 1), (c1, 3)].map fun e =>
    _get_leaves (⟨none, [(c0, 1), (c1, 3)]⟩ :: ⟨some 0, [(c1, 2)]⟩ ::
      tailPairs cs 2) (f + 1) e.2).sum = 2
  rw [List.map_cons, List.map_cons, List.map_nil, List.sum_cons,
    List.sum_cons, List.sum_nil]
  have h1 : _get_leaves (⟨none, [(c0, 1), (c1, 3)]⟩ :: ⟨some 0, [(c1, 2)]⟩ ::
      tailPairs cs 2) (f + 1) 1 = 1 := by
    rw [_get_leaves]
    show ([(c1, 2)].map fun e =>
      _get_leaves (⟨none, [(c0, 1), (c1, 3)]⟩ :: ⟨some 0, [(c1, 2)]⟩ ::
        tailPairs cs 2) f e.2).sum = 1
    rw [List.map_cons, List.map_nil, List.sum_cons, List.sum_nil,
      Nat.add_zero]
    exact get_leaves_pairs_first cs
      [⟨none, [(c0, 1), (c1, 3)]⟩, ⟨some 0, [(c1, 2)]⟩] f (by omega)
  have h3 : _get_leaves (⟨none, [(c0, 1), (c1, 3)]⟩ :: ⟨some 0, [(c1, 2)]⟩ ::
      tailPairs cs 2) (f + 1) 3 = 1 :=
    get_leaves_pairs_second cs
      [⟨none, [(c0, 1), (c1, 3)]⟩, ⟨some 0, [(c1, 2)]⟩] (f + 1) (by omega)
  rw [show ((c0, 1) : Char × Nat).2 = 1 from rfl,
    show ((c1, 3) : Char × Nat).2 = 3 from rfl] at *
  rw [h1, h3]
  rfl

end NaiveSuffixTrie

namespace NaiveSuffixTrie

/-- C1 — the claim says a traversal step that finds no matching edge makes
`substring` return false, `suffix` return false and `occurrences` return 0
with no error raised.  In the source, `get_edge` is `self.edges[label]`,
which raises KeyError on a missing label, so on the trie built from the
empty string all three queries raise on the query "a" (modelled as
`Except.error ()`) instead of returning false/false/0.  The repository's own
test `test_substring_empty_trie` asserts the false-returning behaviour. -/
theorem queries_raise_on_missing_edge :
    ((_build_suffix_trie []).map fun st =>
      (substring st.1 st.2 ['a'], suffix st.1 st.2 ['a'],
       occurrences st.1 st.2 ['a'])) =
    some (Except.error (), Except.error (), Except.error ()) := rfl

/-- C2 — the claim says `suffix` performs the same continuation walk as
`substring` and then tests for a leaf.  The source instead restarts every
step from the root (`curr = suffix_trie.get_edge(c)`), so on the trie built
from "abba" it answers false for the query "abba" (the walk ends at the
root's child for the final symbol, which is not a leaf), while the
continuation walk of the claim (`suffix_spec`) answers true.  The
repository's own test asserts `suffix(trie, "abba")` is true. -/
theorem suffix_restarts_from_root :
    ((_build_suffix_trie ['a', 'b', 'b', 'a']).map fun st =>
      (suffix st.1 st.2 ['a', 'b', 'b', 'a'],
       suffix_spec st.1 st.2 ['a', 'b', 'b', 'a'])) =
    some (Except.ok false, Except.ok true) := rfl

/-- C3 — the claim says `occurrences` returns the leaf count of the matched
subtree.  The source returns `_get_leaves(suffix_trie)` — the leaf count of
the whole graph from the root argument.  On the trie built from "ab" the
query "ab" yields 2 (all leaves of the graph) while the leaf count at the
node the walk reached is 1. -/
theorem occurrences_counts_whole_graph :
    ((_build_suffix_trie ['a', 'b']).map fun st =>
      (occurrences st.1 st.2 ['a', 'b'],
       (walkFrom st.1 st.2 ['a', 'b']).map fun i =>
         _get_leaves st.1 st.1.length i)) =
    some (Except.ok 2, Except.ok 1) := rfl

/-- C4 — the claim (and the `SuffixTrieNode` class docstring) says every
node except the root has a non-absent suffix link after the build.  On the
trie built from "ab", node 3 — the root's child along the edge labelled
'b', hence a non-root node of the graph — has an absent suffix link: the
walk that created it stopped because the root's link is absent, and no later
assignment reaches it.  The root half of the claim does hold (its link is
absent, shown first). -/
theorem build_leaves_suffix_link_absent :
    ((_build_suffix_trie ['a', 'b']).map fun st =>
      ((getNode st.1 st.2).suffix_link, get_edge st.1 st.2 'b',
       (getNode st.1 3).suffix_link)) =
    some (none, some 3, none) := rfl

/-- C5 — the claim (and the repository's own tests) says `substring` on the
trie built from "abba" is true for "", "a", "ab", "abb", "abba", "b", "bb",
"bba", "ba" and false for "aba", "aa", "abbaa".  On the source: "ba" raises
KeyError — the build loses the "ba" branch because the suffix-link walk
stops at a node whose link was never set (the flagged
`test_build_trie_breakage`) — and the three negative queries raise KeyError
instead of returning false.  The other eight positive queries do answer
true. -/
theorem substring_abba_results :
    ((_build_suffix_trie ['a', 'b', 'b', 'a']).map fun st =>
      ([[], ['a'], ['a', 'b'], ['a', 'b', 'b'], ['a', 'b', 'b', 'a'],
        ['b'], ['b', 'b'], ['b', 'b', 'a'], ['b', 'a'],
        ['a', 'b', 'a'], ['a', 'a'], ['a', 'b', 'b', 'a', 'a']].map
        fun q => substring st.1 st.2 q)) =
    some [Except.ok true, Except.ok true, Except.ok true, Except.ok true,
          Except.ok true, Except.ok true, Except.ok true, Except.ok true,
          Except.error (), Except.error (), Except.error (),
          Except.error ()] := rfl

/-- C6 — round-trip: for every input sequence `s` and every prefix of `s`
(written `s.take n`), `substring` on the root returned by the build answers
true.  The build extends the path spelling the consumed input by one edge
per symbol (`deepest = deepest.get_edge(character)`), it never overwrites an
existing edge, and the edge walk of a prefix follows exactly that path. -/
theorem substring_take_true (s : List Char) (n : Nat) (a : Arena) (r : Nat)
    (h : _build_suffix_trie s = some (a, r)) :
    substring a r (s.take n) = Except.ok true := by
  cases s with
  | nil =>
    rw [_build_suffix_trie] at h
    injection h with h
    have ha : [(⟨none, []⟩ : SuffixTrieNode)] = a := congrArg Prod.fst h
    have hr : (0 : Nat) = r := congrArg Prod.snd h
    rw [← ha, ← hr, List.take_nil]
    rfl
  | cons c0 rest =>
    rw [_build_suffix_trie] at h
    cases hb : buildLoop [⟨none, [(c0, 1)]⟩, ⟨some 0, []⟩] 1 rest with
    | none => rw [hb] at h; exact absurd h (by simp)
    | some st =>
      rw [hb] at h
      injection h with h
      have ha : st.1 = a := congrArg Prod.fst h
      have hr : r = 0 := (congrArg Prod.snd h).symm
      subst hr
      rw [← ha]
      have hwalk := buildLoop_walkFrom rest _ 1 st hb
      have hedge : get_edge st.1 0 c0 = some 1 :=
        buildLoop_edgePres rest _ 1 st hb 0 c0 1
          (by rw [get_edge]; simp [getNode, lookupEdge])
      have hfull : walkFrom st.1 0 (c0 :: rest) = Except.ok st.2 := by
        rw [walkFrom, hedge]
        exact hwalk
      obtain ⟨m, hm⟩ := walkFrom_take st.1 (c0 :: rest) 0 st.2 n hfull
      rw [substring, hm]

/-- C6 witness: the prefix "a" of the input "ab". -/
theorem substring_take_true_witness :
    substring [⟨none, [('a', 1), ('b', 3)]⟩, ⟨some 0, [('b', 2)]⟩,
      ⟨some 3, []⟩, ⟨none, []⟩] 0 (['a', 'b'].take 1) = Except.ok true :=
  substring_take_true ['a', 'b'] 1 _ 0 rfl

/-- C7 — `occurrences` on the empty query equals the total leaf count of
the entire graph: the walk over the empty query consumes nothing and the
source then returns `_get_leaves(suffix_trie)`, the count in which a node
with no edges contributes 1 and any other node the sum of its children's
counts. -/
theorem occurrences_empty_total_leaves (s : List Char) (a : Arena) (r : Nat)
    (h : _build_suffix_trie s = some (a, r)) :
    occurrences a r [] = Except.ok (_get_leaves a a.length r) := rfl

/-- C7 witness: the trie built from "a". -/
theorem occurrences_empty_total_leaves_witness :
    occurrences [⟨none, [('a', 1)]⟩, ⟨some 0, []⟩] 0 [] =
      Except.ok (_get_leaves [⟨none, [('a', 1)]⟩, ⟨some 0, []⟩] 2 0) :=
  occurrences_empty_total_leaves ['a'] _ 0 rfl

/-- C8 counterexample — the claim says the total leaf count for a non-empty
input of length `n` with all distinct trailing characters is `n + 1`.  On
the input "a" (length 1, trivially all-distinct) the built graph has
exactly 1 leaf, not 2. -/
theorem leaf_count_counterexample :
    ((_build_suffix_trie ['a']).map fun st =>
      _get_leaves st.1 st.1.length st.2) = some 1 ∧
    ¬ (((_build_suffix_trie ['a']).map fun st =>
      _get_leaves st.1 st.1.length st.2) = some (['a'].length + 1)) := by
  refine ⟨rfl, ?_⟩
  decide

/-- C8 amended — for every non-empty input with pairwise distinct
characters, the total number of leaves in the full graph the build produces
is `min n 2`, not `n + 1`: after the first two symbols the suffix-link walk
always dies on the absent link of the previous step's second node, so each
further symbol extends exactly the same two branches. -/
theorem leaf_count_nodup (s : List Char) (hne : s ≠ []) (hnd : s.Nodup)
    (a : Arena) (r : Nat) (h : _build_suffix_trie s = some (a, r)) :
    _get_leaves a a.length r = min s.length 2 := by
  cases s with
  | nil => exact absurd rfl hne
  | cons c0 rest =>
    cases rest with
    | nil =>
      rw [show _build_suffix_trie [c0] =
        some ([⟨none, [(c0, 1)]⟩, ⟨some 0, []⟩], 0) from rfl] at h
      injection h with h
      have ha : [(⟨none, [(c0, 1)]⟩ : SuffixTrieNode), ⟨some 0, []⟩] = a :=
        congrArg Prod.fst h
      have hr : (0 : Nat) = r := congrArg Prod.snd h
      rw [← ha, ← hr]
      rfl
    | cons c1 cs =>
      have h01 : c0 ∉ c1 :: cs := (List.nodup_cons.mp hnd).1
      have hne01 : c0 ≠ c1 := by
        intro he
        exact h01 (he ▸ List.mem_cons_self c1 cs)
      rw [build_distinct c0 c1 cs hne01] at h
      injection h with h
      have ha : (⟨none, [(c0, 1), (c1, 3)]⟩ : SuffixTrieNode) ::
          ⟨some 0, [(c1, 2)]⟩ :: tailPairs cs 2 = a := congrArg Prod.fst h
      have hr : (0 : Nat) = r := congrArg Prod.snd h
      rw [← ha, ← hr]
      have hlen : ((⟨none, [(c0, 1), (c1, 3)]⟩ : SuffixTrieNode) ::
          ⟨some 0, [(c1, 2)]⟩ :: tailPairs cs 2).length =
          2 * cs.length + 4 := by
        simp only [List.length_cons, length_tailPairs]
      have hmin : min (c0 :: c1 :: cs).length 2 = 2 := by
        simp only [List.length_cons]
        omega
      rw [hlen, hmin]
      exact get_leaves_root_distinct c0 c1 cs (2 * cs.length + 4) (by omega)

/-- C8 amended witness: the input "ab" has 2 leaves, and min 2 2 = 2. -/
theorem leaf_count_nodup_witness :
    _get_leaves [⟨none, [('a', 1), ('b', 3)]⟩, ⟨some 0, [('b', 2)]⟩,
      ⟨some 3, []⟩, ⟨none, []⟩] 4 0 = min 2 2 :=
  leaf_count_nodup ['a', 'b'] (by decide) (by decide) _ 0 rfl

/-- C9 — none of the three query operations mutates the graph: in the
state-threaded renderings of `substring`, `suffix` and `occurrences` the
arena coming out of a call is exactly the arena that went in (hence every
node keeps the same edge mapping and the same suffix link). -/
theorem queries_do_not_mutate (a : Arena) (r : Nat) (s : List Char) :
    (substringSt a r s).2 = a ∧ (suffixSt a r s).2 = a ∧
      (occurrencesSt a r s).2 = a := by
  refine ⟨?_, ?_, ?_⟩
  · rw [substringSt]
    have hsnd := walkFromSt_snd a s r
    cases hw : walkFromSt a r s with
    | mk res a1 =>
      rw [hw] at hsnd
      cases res with
      | error e => exact hsnd
      | ok i => exact hsnd
  · rw [suffixSt]
    have hsnd := suffixLoopSt_snd a r s r
    cases hw : suffixLoopSt a r r s with
    | mk res a1 =>
      rw [hw] at hsnd
      cases res with
      | error e => exact hsnd
      | ok i => exact hsnd
  · rw [occurrencesSt]
    have hsnd := walkFromSt_snd a s r
    cases hw : walkFromSt a r s with
    | mk res a1 =>
      rw [hw] at hsnd
      cases res with
      | error e => exact hsnd
      | ok i => exact hsnd

/-- C10 — whenever `occurrences` returns a value without raising, that
value is the same for every query (the source discards the node the walk
reached and counts the leaves of the whole graph from the root argument),
and in particular equals `occurrences(root, "")`. -/
theorem occurrences_independent (s s1 s2 : List Char) (a : Arena) (r : Nat)
    (v1 v2 : Nat) (hb : _build_suffix_trie s = some (a, r))
    (h1 : occurrences a r s1 = Except.ok v1)
    (h2 : occurrences a r s2 = Except.ok v2) :
    v1 = v2 ∧ occurrences a r [] = Except.ok v1 := by
  have e1 := occurrences_ok_eq a r s1 v1 h1
  have e2 := occurrences_ok_eq a r s2 v2 h2
  refine ⟨e1.trans e2.symm, ?_⟩
  rw [e1]
  rfl

/-- C10 witness: on the trie built from "ab", the queries "a" and "b" both
yield 2, the value of the empty query. -/
theorem occurrences_independent_witness :
    (2 : Nat) = 2 ∧ occurrences [⟨none, [('a', 1), ('b', 3)]⟩,
      ⟨some 0, [('b', 2)]⟩, ⟨some 3, []⟩, ⟨none, []⟩] 0 [] =
      Except.ok 2 :=
  occurrences_independent ['a', 'b'] ['a'] ['b'] _ 0 2 2 rfl rfl rfl

end NaiveSuffixTrie
